import Mathlib

set_option maxRecDepth 100000
set_option maxHeartbeats 2000000

/-!
Verification development for the SUUMO real-estate scraping pipeline
(apps/scraper/suumo_scraper.py).  The Python source is shallowly embedded:
strings are lists of characters, Python floats are modelled as rationals,
absent values are Option, the SQLite store is an explicit record of rows,
and each regular expression of the source is translated into an explicit
scanning function with the same leftmost, greedy-with-backtracking
semantics on the character classes the program uses.
-/

namespace Suumo

def emptyS : String := ""

/-- ASCII decimal digit test, modelling the regex digit class after NFKC
normalization has folded full-width digits to ASCII. -/
def isDigitC (c : Char) : Bool := 48 ≤ c.toNat && c.toNat ≤ 57

/-- Whitespace as matched by the regex whitespace class on the inputs this
embedding covers: ASCII whitespace plus the ideographic space. -/
def isSpaceChar (c : Char) : Bool :=
  c.toNat == 32 || (9 ≤ c.toNat && c.toNat ≤ 13) || c.toNat == 0x3000

/-- Compatibility decomposition table for the non-ASCII code points this
development folds: the ideographic space, full-width tilde, comma and
digits, the square-meter glyph and the superscript two. -/
def nfkcTable : List (Char × List Char) :=
  [('　', [' ']), ('～', ['~']), ('，', [',']), ('㎡', ['m', '2']), ('²', ['2']),
   ('０', ['0']), ('１', ['1']), ('２', ['2']), ('３', ['3']), ('４', ['4']),
   ('５', ['5']), ('６', ['6']), ('７', ['7']), ('８', ['8']), ('９', ['9'])]

/-- Character-level NFKC compatibility mapping restricted to the code points
this development needs: a table lookup, the identity elsewhere, so ASCII in
particular is untouched. -/
def nfkcChar (c : Char) : List Char :=
  match nfkcTable.find? (fun p => p.1 == c) with
  | some p => p.2
  | none => [c]

def nfkcL (cs : List Char) : List Char := (cs.map nfkcChar).flatten

/-- One step of whitespace-run collapsing, building the output from the
right: a whitespace character contributes a single space unless the output
already starts with the space of the same run. -/
def collapseStep (c : Char) (acc : List Char) : List Char :=
  if isSpaceChar c then
    if acc.head? = some ' ' then acc else ' ' :: acc
  else c :: acc

/-- Collapse every maximal run of whitespace to a single ASCII space,
modelling the substitution of a whitespace run by one space. -/
def collapseWs (l : List Char) : List Char := l.foldr collapseStep []

/-- Strip leading and trailing whitespace. -/
def stripL (cs : List Char) : List Char :=
  ((cs.dropWhile isSpaceChar).reverse.dropWhile isSpaceChar).reverse

/-- Core of normalize_text on character lists: NFKC fold, whitespace run
collapse, then strip. -/
def normList (cs : List Char) : List Char := stripL (collapseWs (nfkcL cs))

def normalize_text (s : String) : String := String.mk (normList s.data)

/-- Comma removal, modelling replace of the comma by the empty string. -/
def decomma (cs : List Char) : List Char := cs.filter (fun c => c != ',')

/-- The normalized, comma-stripped working text used by all numeric
extractors of the source. -/
def prepText (s : String) : List Char := decomma (normList s.data)

def digitsToNat (ds : List Char) : Nat := ds.foldl (fun n c => 10 * n + (c.toNat - 48)) 0

/-- Rational addition computed through mkRat; the standard addition of the
field is proved equal below, and this form reduces inside the kernel. -/
def qAdd (a b : ℚ) : ℚ := mkRat (a.num * b.den + b.num * a.den) (a.den * b.den)

/-- Rational multiplication computed through mkRat. -/
def qMul (a b : ℚ) : ℚ := mkRat (a.num * b.num) (a.den * b.den)

/-- Rational division computed through mkRat, with division by zero giving
zero as in the field structure. -/
def qDiv (a b : ℚ) : ℚ :=
  if b.num < 0 then mkRat (-(a.num * b.den)) (a.den * b.num.natAbs)
  else mkRat (a.num * b.den) (a.den * b.num.natAbs)

/-- Binary maximum computed through the boolean comparison. -/
def qMax (a b : ℚ) : ℚ := if Rat.blt a b then b else a

/-- Value of a matched numeral (digits with optional dot and digits),
modelling the float conversion of a matched group exactly over rationals. -/
def ratOfNumeral (cs : List Char) : ℚ :=
  let ds := cs.takeWhile isDigitC
  match cs.dropWhile isDigitC with
  | '.' :: fs => mkRat (digitsToNat ds * 10 ^ fs.length + digitsToNat fs) (10 ^ fs.length)
  | _ => (digitsToNat ds : ℚ)

/-- Arithmetic mean of a value list, the sum over the length. -/
def meanQ (l : List ℚ) : ℚ := qDiv (l.foldl qAdd 0) (l.length : ℚ)

/-- Maximum of a non-empty value list, zero on the empty list. -/
def maxQ : List ℚ → ℚ
  | [] => 0
  | x :: xs => xs.foldl qMax x

def dropSpacesL (cs : List Char) : List Char := cs.dropWhile isSpaceChar

/-- Candidate matches at the current position for the regex fragment of one
decimal numeral with optional fractional part: the greedy alternative
(with fraction) first, then the backtracked alternative without it.  Each
candidate pairs the matched numeral with the remaining input. -/
def numCands (cs : List Char) : List (List Char × List Char) :=
  let ds := cs.takeWhile isDigitC
  let r1 := cs.dropWhile isDigitC
  if ds = [] then []
  else
    match r1 with
    | '.' :: r2 =>
      let fs := r2.takeWhile isDigitC
      if fs = [] then [(ds, r1)]
      else [(ds ++ '.' :: fs, r2.dropWhile isDigitC), (ds, r1)]
    | _ => [(ds, r1)]

/-- Match one numeral, optional whitespace, then the given unit character;
returns the numeral group and the input remaining after the unit. -/
def matchNumUnit (unit : Char) (cs : List Char) : Option (List Char × List Char) :=
  (numCands cs).findSome? fun p =>
    match dropSpacesL p.2 with
    | u :: rest => if u = unit then some (p.1, rest) else none
    | [] => none

/-- Leftmost-match regex search: try the matcher at every successive start
position. -/
def searchPat {α : Type} (m : List Char → Option α) : List Char → Option α
  | [] => m []
  | c :: cs =>
    match m (c :: cs) with
    | some v => some v
    | none => searchPat m cs

/-- Match the oku unit, optional whitespace, a numeral, optional whitespace
and the man unit; returns the numeral group (the man remainder). -/
def matchOkuMan (cs : List Char) : Option (List Char) :=
  match cs with
  | c :: r =>
    if c = '億' then
      (numCands (dropSpacesL r)).findSome? fun p =>
        match dropSpacesL p.2 with
        | c2 :: _ => if c2 = '万' then some p.1 else none
        | [] => none
    else none
  | [] => none

/-- Japanese currency amount parser translated from parse_jpy_amount:
first an oku figure (plus an optional man remainder found anywhere after an
oku character), then a bare man figure, then a bare yen figure. -/
def parse_jpy_amount (s : String) : Option ℚ :=
  let t := prepText s
  if t = [] then none
  else
    match searchPat (matchNumUnit '億') t with
    | some p =>
      let oku := ratOfNumeral p.1
      let man :=
        match searchPat matchOkuMan t with
        | some n2 => ratOfNumeral n2
        | none => 0
      some (qAdd (qMul oku 100000000) (qMul man 10000))
    | none =>
      match searchPat (matchNumUnit '万') t with
      | some p => some (qMul (ratOfNumeral p.1) 10000)
      | none =>
        match searchPat (matchNumUnit '円') t with
        | some p => some (ratOfNumeral p.1)
        | none => none

def tokenUpto (cs rest : List Char) : List Char := cs.take (cs.length - rest.length)

/-- Match one whole currency token: a numeral, optional whitespace, then
either oku-numeral-man (tried first), bare oku, bare man, or bare yen.
Returns the full matched token and the remaining input. -/
def matchYenToken (cs : List Char) : Option (List Char × List Char) :=
  (numCands cs).findSome? fun p =>
    match dropSpacesL p.2 with
    | u :: r2 =>
      if u = '億' then
        match (numCands r2).findSome? (fun q =>
          match q.2 with
          | c2 :: r4 => if c2 = '万' then some (q.1, r4) else none
          | [] => none) with
        | some q => some (tokenUpto cs q.2, q.2)
        | none => some (tokenUpto cs r2, r2)
      else if u = '万' then some (tokenUpto cs r2, r2)
      else if u = '円' then some (tokenUpto cs r2, r2)
      else none
    | [] => none

/-- Non-overlapping findall, fuelled for structural recursion: scan left to
right, on a match continue after its end, otherwise advance one character.
Every matcher used here consumes at least one character, so fuel equal to
the input length makes the bounded scan coincide with the unbounded one;
the guard branch only certifies that progress. -/
def scanAllF {α : Type} (m : List Char → Option (α × List Char)) : Nat → List Char → List α
  | 0, _ => []
  | _ + 1, [] => []
  | fuel + 1, c :: cs =>
    match m (c :: cs) with
    | some (v, rest) =>
      if rest.length ≤ cs.length then v :: scanAllF m fuel rest
      else v :: scanAllF m fuel cs
    | none => scanAllF m fuel cs

def scanAll {α : Type} (m : List Char → Option (α × List Char)) (cs : List Char) : List α :=
  scanAllF m cs.length cs

/-- Non-overlapping substitution by the empty string, fuelled the same way:
drop every match, keep everything else. -/
def removeAllF (m : List Char → Option (List Char)) : Nat → List Char → List Char
  | 0, l => l
  | _ + 1, [] => []
  | fuel + 1, c :: cs =>
    match m (c :: cs) with
    | some rest =>
      if rest.length ≤ cs.length then removeAllF m fuel rest
      else removeAllF m fuel cs
    | none => c :: removeAllF m fuel cs

def removeAll (m : List Char → Option (List Char)) (cs : List Char) : List Char :=
  removeAllF m cs.length cs

/-- Square-meter unit alternatives in source order: the letter m, optional
whitespace and the digit two; the letter m and the superscript two; the
single square-meter glyph. -/
def matchSqmUnit (cs : List Char) : Option (List Char) :=
  match cs with
  | c :: r =>
    if c = 'm' then
      match dropSpacesL r with
      | '2' :: r2 => some r2
      | _ =>
        match r with
        | '²' :: r3 => some r3
        | _ => none
    else if c = '㎡' then some r
    else none
  | [] => none

/-- Match one numeral, optional whitespace and a square-meter unit; returns
the numeral group and the remaining input. -/
def matchSqm (cs : List Char) : Option (List Char × List Char) :=
  (numCands cs).findSome? fun p =>
    (matchSqmUnit (dropSpacesL p.2)).map fun rest => (p.1, rest)

/-- Mean price over range parts split at tilde variants, falling back to the
maximum over embedded whole currency tokens, translated from
extract_price_yen. -/
def tildeChar (c : Char) : Bool := c == '~' || c == '〜' || c == '～'

def splitTildes : List Char → List (List Char)
  | [] => [[]]
  | c :: cs =>
    if tildeChar c then [] :: splitTildes cs
    else
      match splitTildes cs with
      | p :: ps => (c :: p) :: ps
      | [] => [[c]]

def extract_price_yen (s : String) : Option ℚ :=
  let t := prepText s
  if t = [] then none
  else
    let vals := (splitTildes t).filterMap fun p => parse_jpy_amount (String.mk p)
    if vals = [] then
      let found := (scanAll matchYenToken t).filterMap fun tok => parse_jpy_amount (String.mk tok)
      if found = [] then none else some (maxQ found)
    else some (meanQ vals)

/-- Square-meter area extractor translated from extract_area_sqm: mean of
all matched figures, absent when none match. -/
def extract_area_sqm (s : String) : Option ℚ :=
  let t := prepText s
  if t = [] then none
  else
    let vals := (scanAll matchSqm t).map ratOfNumeral
    if vals = [] then none else some (meanQ vals)

def tsuboPerSqm : ℚ := mkRat 3305785 1000000

/-- Tsubo area extractor translated from extract_area_tsubo: mean of all
explicit tsubo figures, else the square-meter parse of the working text
divided by the fixed conversion factor. -/
def extract_area_tsubo (s : String) : Option ℚ :=
  let t := prepText s
  if t = [] then none
  else
    let vals := (scanAll (matchNumUnit '坪') t).map ratOfNumeral
    if vals = [] then
      match extract_area_sqm (String.mk t) with
      | none => none
      | some q => some (qDiv q tsuboPerSqm)
    else some (meanQ vals)

/-- Match one parenthesized group (open parenthesis, any run of characters
other than the close parenthesis, close parenthesis); returns the rest. -/
def matchParenGroup (cs : List Char) : Option (List Char) :=
  match cs with
  | '(' :: r =>
    match r.dropWhile (fun c => c != ')') with
    | ')' :: rest => some rest
    | _ => none
  | _ => none

/-- Layout token extractor translated from extract_layout_text: drop area
figures and parenthesized groups, then recollapse whitespace. -/
def extract_layout_text (s : String) : String :=
  let t := normList s.data
  if t = [] then emptyS
  else
    let t1 := removeAll (fun cs => (matchSqm cs).map (·.2)) t
    let t2 := removeAll matchParenGroup t1
    String.mk (stripL (collapseWs t2))

def partialLotMarker : List Char := ['の', '一', '部']

def containsSeq (pat : List Char) : List Char → Bool
  | [] => decide (pat = [])
  | c :: cs => pat.isPrefixOf (c :: cs) || containsSeq pat cs

def lotStreets : List (List Char) :=
  [['奥', '沢'], ['東', '玉', '川'], ['田', '園', '調', '布'], ['等', '々', '力']]

/-- Match, at the current position, one of the monitored street names
followed by optional whitespace, digits, optional whitespace, a hyphen,
optional whitespace and digits. -/
def matchLotBlockAt (cs : List Char) : Bool :=
  lotStreets.any fun nm =>
    nm.isPrefixOf cs &&
      (let r := dropSpacesL (cs.drop nm.length)
       let d1 := r.takeWhile isDigitC
       let r1 := dropSpacesL (r.dropWhile isDigitC)
       !d1.isEmpty &&
         match r1 with
         | '-' :: r2 => !((dropSpacesL r2).takeWhile isDigitC).isEmpty
         | _ => false)

def searchBool (m : List Char → Bool) : List Char → Bool
  | [] => m []
  | c :: cs => m (c :: cs) || searchBool m cs

/-- Address noise test translated from is_noisy_address: empty after
normalization, containing the partial-lot marker, or containing a monitored
street name with a lot-and-block numeric suffix. -/
def is_noisy_address (s : String) : Bool :=
  let a := normList s.data
  if a = [] then true
  else if containsSeq partialLotMarker a then true
  else searchBool matchLotBlockAt a

structure Url where
  host : String
  path : String
  deriving DecidableEq, Repr

/-- Hyperlink as discovered in a page: an optional explicit host and a path.
The join against the absolute site base keeps an explicit host and otherwise
substitutes the base host. -/
structure Href where
  host : Option String
  path : String
  deriving DecidableEq, Repr

def baseHost : String := "suumo.jp"

def absoluteUrl (h : Href) : Url := ⟨h.host.getD baseHost, h.path⟩

/-- Link admission test of the crawler: the joined host must equal the host
of the fixed site base, and the path must extend the seed path. -/
def admissibleLink (seedPath : String) (u : Url) : Bool :=
  u.host == baseHost && seedPath.data.isPrefixOf u.path.data

/-- Queue extension for one visited page: admissible links not already
visited and not already queued are appended in order. -/
def enqueueLinks (seedPath : String) (visited queue : List Url) (links : List Href) : List Url :=
  links.foldl (fun q h =>
    let nxt := absoluteUrl h
    if admissibleLink seedPath nxt && !visited.contains nxt && !q.contains nxt
    then q ++ [nxt] else q) queue

/-- The hyperlink table of the remote site: for every page address, the
links the fetched document contains. -/
def LinkTable : Type := List (Url × List Href)

def linksOf (web : LinkTable) (u : Url) : List Href :=
  match web.find? (fun p => p.1 == u) with
  | some p => p.2
  | none => []

/-- Breadth-first crawl loop translated from crawl_list_pages: pop the
queue, skip already-visited pages, otherwise record the visit and enqueue
the admissible links of the fetched page, stopping when the queue empties
or the page budget is reached.  The loop is fuelled for structural
recursion; every iteration pops one queued element, at most maxPages
iterations enqueue, and one visit enqueues at most the total number of
links of the site, so the fuel passed by the entry point dominates the
iteration count and the bounded loop coincides with the while loop. -/
def crawlLoop (web : LinkTable) (seedPath : String) (maxPages : Nat) :
    Nat → List Url → List Url → List Url
  | 0, visited, _ => visited
  | _ + 1, visited, [] => visited
  | fuel + 1, visited, url :: rest =>
    if visited.length < maxPages then
      if url ∈ visited then
        crawlLoop web seedPath maxPages fuel visited rest
      else
        let visited2 := visited ++ [url]
        crawlLoop web seedPath maxPages fuel visited2
          (enqueueLinks seedPath visited2 rest (linksOf web url))
    else visited

def totalLinks (web : LinkTable) : Nat := (web.map (fun p => p.2.length)).sum

/-- Lexicographic comparison on character lists by code point, the string
order of the sorted delivery. -/
def listLtChar : List Char → List Char → Bool
  | [], [] => false
  | [], _ :: _ => true
  | _ :: _, [] => false
  | a :: as, b :: bs =>
    if a.toNat < b.toNat then true
    else if b.toNat < a.toNat then false
    else listLtChar as bs

def urlLe (u v : Url) : Bool :=
  listLtChar u.host.data v.host.data ||
    (u.host == v.host && !listLtChar v.path.data u.path.data)

def insertSortedUrl (x : Url) : List Url → List Url
  | [] => [x]
  | y :: ys => if urlLe x y then x :: y :: ys else y :: insertSortedUrl x ys

def sortUrls (l : List Url) : List Url := l.foldr insertSortedUrl []

/-- Crawl entry point: visited pages of the loop, delivered in sorted
order. -/
def crawl_list_pages (web : LinkTable) (seed : Url) (maxPages : Nat) : List Url :=
  sortUrls (crawlLoop web seed.path maxPages (1 + maxPages * (totalLinks web + 1)) [] [seed])

structure Row where
  category : String
  sub_category : String
  listing_id : String
  title : String
  address : String
  price_text : String
  price_yen : Option ℚ
  area_sqm : Option ℚ
  area_tsubo : Option ℚ
  unit_price_per_sqm : Option ℚ
  unit_price_per_tsubo : Option ℚ
  layout_text : String
  detail_text : String
  detail_url : String
  deriving DecidableEq, Repr

def baseUrlStr : String := "https://suumo.jp"

/-- Join of a document-relative hyperlink against the absolute site base,
for the absolute-path links this site serves. -/
def absoluteStr (href : String) : String :=
  if ("http").data.isPrefixOf href.data then href else baseUrlStr ++ href

/-- Match the rent room identifier pattern: the characters b c equals
followed by digits, the digits being the captured group. -/
def matchBcId (cs : List Char) : Option (List Char) :=
  match cs with
  | 'b' :: 'c' :: '=' :: r =>
    let ds := r.takeWhile isDigitC
    if ds = [] then none else some ds
  | _ => none

/-- Match the sale listing identifier pattern: slash n c underscore, digits,
slash, the digits being the captured group. -/
def matchNcId (cs : List Char) : Option (List Char) :=
  match cs with
  | '/' :: 'n' :: 'c' :: '_' :: r =>
    let ds := r.takeWhile isDigitC
    if ds = [] then none
    else
      match r.dropWhile isDigitC with
      | '/' :: _ => some ds
      | _ => none
  | _ => none

/-- One room row of a rent building card: the text of its table cells, and
the first room hyperlink of the row when present. -/
structure RentRow where
  tds : List String
  roomHref : Option String
  deriving DecidableEq, Repr

/-- One rent building card: title text, address text and building link when
the respective elements are present, and the room rows of its table. -/
structure RentCard where
  titleText : Option String
  addrText : Option String
  linkHref : Option String
  rows : List RentRow
  deriving DecidableEq, Repr

/-- Rent page parser translated from parse_rent_page: each card yields one
record per room row having at least four cells, with the cell offsets
selected by the row width. -/
def parse_rent_page (cards : List RentCard) : List Row :=
  cards.flatMap fun card =>
    let title := normalize_text (card.titleText.getD emptyS)
    let addr :=
      match card.addrText with
      | some s => normalize_text s
      | none => emptyS
    let detail_url :=
      match card.linkHref with
      | some h => absoluteStr h
      | none => emptyS
    (card.rows.filter fun tr => 4 ≤ tr.tds.length).map fun tr =>
      let tds := tr.tds.map normalize_text
      let wide := 6 ≤ tds.length
      let floor := if wide then tds.getD 2 emptyS else tds.getD 0 emptyS
      let price_fee_raw := if wide then tds.getD 3 emptyS else tds.getD 1 emptyS
      let deposit_key := if wide then tds.getD 4 emptyS else tds.getD 2 emptyS
      let layout_area := if wide then tds.getD 5 emptyS else tds.getD 3 emptyS
      let price_fee :=
        match searchPat matchYenToken price_fee_raw.data with
        | some p => normalize_text (String.mk p.1)
        | none => price_fee_raw
      let room_url :=
        match tr.roomHref with
        | some h => absoluteStr h
        | none => detail_url
      let listing_id :=
        if room_url = emptyS then emptyS
        else
          match searchPat matchBcId room_url.data with
          | some ds => String.mk ds
          | none => room_url
      { category := ("rent"), sub_category := ("賃貸"), listing_id := listing_id,
        title := title, address := addr,
        price_text := price_fee,
        price_yen := extract_price_yen price_fee,
        area_sqm := extract_area_sqm layout_area,
        area_tsubo := extract_area_tsubo layout_area,
        unit_price_per_sqm := none, unit_price_per_tsubo := none,
        layout_text := extract_layout_text layout_area,
        detail_text := floor ++ (" | ") ++ deposit_key ++ (" | ") ++ layout_area,
        detail_url := room_url }

/-- One label and value pair of a sale card definition list, each side
present only when the respective element exists. -/
structure DlPair where
  dtText : Option String
  ddText : Option String
  deriving DecidableEq, Repr

/-- One sale property card: its definition lists and its listing link when
present. -/
structure SaleCard where
  dls : List DlPair
  linkHref : Option String
  deriving DecidableEq, Repr

/-- Insertion into the ordered key-to-value map built from a card, with
overwrite-in-place semantics of a dictionary. -/
def dmInsert (m : List (String × String)) (k v : String) : List (String × String) :=
  if m.any (fun p => p.1 == k) then m.map (fun p => if p.1 == k then (k, v) else p)
  else m ++ [(k, v)]

def buildDetailMap (dls : List DlPair) : List (String × String) :=
  dls.foldl (fun m dl =>
    match dl.dtText, dl.ddText with
    | some kt, some vt =>
      let k := normalize_text kt
      let v := normalize_text vt
      if k = emptyS then m else dmInsert m k v
    | _, _ => m) []

def dmGet (m : List (String × String)) (k : String) : String :=
  match m.find? (fun p => p.1 == k) with
  | some p => p.2
  | none => emptyS

/-- First non-empty of two strings, the truthiness-based fallback chain of
the source. -/
def firstNonEmpty (a b : String) : String := if a = emptyS then b else a

def quoteJson (s : String) : String := String.mk ('"' :: s.data ++ ['"'])

/-- Serialization of the detail map, modelling the JSON object dump. -/
def jsonDumps (m : List (String × String)) : String :=
  String.mk ['\x7b'] ++
    String.intercalate (", ") (m.map fun p => quoteJson p.1 ++ (": ") ++ quoteJson p.2) ++
    String.mk ['\x7d']

/-- Sale page parser translated from parse_baibai_page: one record per
property card, fields read from the label-to-value map, unit prices
computed when price and a positive area both resolve. -/
def parse_baibai_page (cards : List SaleCard) (sub_category : String) : List Row :=
  cards.map fun card =>
    let dm := buildDetailMap card.dls
    let addr := dmGet dm ("所在地")
    let title := dmGet dm ("物件名")
    let price := dmGet dm ("販売価格")
    let area_text :=
      firstNonEmpty (dmGet dm ("土地面積"))
        (firstNonEmpty (dmGet dm ("建物面積")) (dmGet dm ("専有面積")))
    let area_sqm := extract_area_sqm area_text
    let area_tsubo := extract_area_tsubo area_text
    let layout_text := normalize_text (dmGet dm ("間取り"))
    let price_yen := extract_price_yen price
    let unit_per_sqm :=
      match price_yen, area_sqm with
      | some p, some a => if Rat.blt 0 a then some (qDiv p a) else none
      | _, _ => none
    let unit_per_tsubo :=
      match price_yen, area_tsubo with
      | some p, some a => if Rat.blt 0 a then some (qDiv p a) else none
      | _, _ => none
    let detail_url :=
      match card.linkHref with
      | some h => absoluteStr h
      | none => emptyS
    let listing_id :=
      if detail_url = emptyS then emptyS
      else
        match searchPat matchNcId detail_url.data with
        | some ds => String.mk ds
        | none => detail_url
    { category := ("sale"), sub_category := sub_category, listing_id := listing_id,
      title := title, address := addr, price_text := price,
      price_yen := price_yen, area_sqm := area_sqm, area_tsubo := area_tsubo,
      unit_price_per_sqm := unit_per_sqm, unit_price_per_tsubo := unit_per_tsubo,
      layout_text := layout_text, detail_text := jsonDumps dm,
      detail_url := detail_url }

def parse_mansion_new (cards : List SaleCard) : List Row :=
  parse_baibai_page cards ("マンション(新築)")

def parse_mansion_used (cards : List SaleCard) : List Row :=
  parse_baibai_page cards ("マンション(中古)")

def parse_house_new (cards : List SaleCard) : List Row :=
  parse_baibai_page cards ("戸建て(新築)")

def parse_house_used (cards : List SaleCard) : List Row :=
  parse_baibai_page cards ("戸建て(中古)")

def parse_land (cards : List SaleCard) : List Row :=
  parse_baibai_page cards ("土地")

inductive ParserKind
  | rent
  | houseNew
  | houseUsed
  | land
  deriving DecidableEq, Repr

/-- One fetched document, holding the card elements each selector family
can extract from it. -/
structure Page where
  rentCards : List RentCard
  saleCards : List SaleCard
  deriving DecidableEq, Repr

structure CategoryConfig where
  category : String
  seed : Url
  kind : ParserKind
  maxPages : Nat
  deriving Repr

def build_configs : List CategoryConfig :=
  [ ⟨("rent"), ⟨baseHost, ("/chintai/tokyo/ek_06660/")⟩, ParserKind.rent, 10⟩,
    ⟨("house_new"), ⟨baseHost, ("/ikkodate/tokyo/ek_06660/")⟩, ParserKind.houseNew, 10⟩,
    ⟨("house_used"), ⟨baseHost, ("/chukoikkodate/tokyo/ek_06660/")⟩, ParserKind.houseUsed, 10⟩,
    ⟨("land"), ⟨baseHost, ("/tochi/tokyo/ek_06660/")⟩, ParserKind.land, 10⟩ ]

/-- Card-selector emptiness test used by the run loop to skip pages without
cards of the configured kind. -/
def hasCards (k : ParserKind) (p : Page) : Bool :=
  match k with
  | ParserKind.rent => !p.rentCards.isEmpty
  | _ => !p.saleCards.isEmpty

def applyParser (k : ParserKind) (p : Page) : List Row :=
  match k with
  | ParserKind.rent => parse_rent_page p.rentCards
  | ParserKind.houseNew => parse_house_new p.saleCards
  | ParserKind.houseUsed => parse_house_used p.saleCards
  | ParserKind.land => parse_land p.saleCards

/-- The fixed remote site, giving for every page address its hyperlinks and
its parsed document. -/
structure Web where
  links : LinkTable
  page : Url → Page

/-- Raw record collection of one run: for each category configuration,
crawl, fetch each page, skip pages without cards, parse the rest. -/
def runRaw (web : Web) : List Row :=
  build_configs.flatMap fun cfg =>
    (crawl_list_pages web.links cfg.seed cfg.maxPages).flatMap fun u =>
      let pg := web.page u
      if hasCards cfg.kind pg then applyParser cfg.kind pg else []

/-- Half-to-even rounding to an integer, as used by the dataframe rounding
of the dedup key columns; the comparison of the fractional part against one
half is carried out on the scaled integer remainder. -/
def roundHalfEven (x : ℚ) : ℤ :=
  let f := x.num.fdiv x.den
  let r2 := 2 * (x.num - f * x.den)
  if r2 < (x.den : ℤ) then f
  else if (x.den : ℤ) < r2 then f + 1
  else if f % 2 = 0 then f else f + 1

def round2 (x : ℚ) : ℚ := qDiv (roundHalfEven (qMul x 100) : ℚ) 100

def round0 (x : ℚ) : ℚ := (roundHalfEven x : ℚ)

/-- The cross-post fingerprint of the fuzzy dedup pass. -/
def fingerprint (r : Row) : String × Option ℚ × Option ℚ × String :=
  (r.sub_category, r.area_sqm.map round2, r.price_yen.map round0, normalize_text r.layout_text)

/-- The key of the exact dedup pass. -/
def exactKey (r : Row) : String × String × String :=
  (r.sub_category, r.listing_id, r.detail_url)

def dedupByKeyAux {α κ : Type} [DecidableEq κ] (key : α → κ) (seen : List κ) : List α → List α
  | [] => []
  | x :: xs =>
    if key x ∈ seen then dedupByKeyAux key seen xs
    else x :: dedupByKeyAux key (key x :: seen) xs

/-- Keep the first element of every key group, preserving order, the
drop-duplicates semantics of the dataframe passes. -/
def dedupByKey {α κ : Type} [DecidableEq κ] (key : α → κ) (xs : List α) : List α :=
  dedupByKeyAux key [] xs

/-- One snapshot row: a record stamped with the run date and fetch time. -/
structure SnapRow where
  run_date : String
  fetched_at : String
  row : Row
  deriving DecidableEq, Repr

/-- Address normalization and noise filtering stage of the run. -/
def addressFilter (rows : List Row) : List Row :=
  (rows.map fun r => { r with address := normalize_text r.address }).filter
    (fun r => !is_noisy_address r.address)

/-- The filtered records stamped with run date and fetch time. -/
def stampedRows (rows : List Row) (run_date fetched_at : String) : List SnapRow :=
  (addressFilter rows).map fun r => SnapRow.mk run_date fetched_at r

/-- Filter, stamp, fuzzy-dedup then exact-dedup stage of the run,
translated from the dataframe section of run. -/
def postProcess (rows : List Row) (run_date fetched_at : String) : List SnapRow :=
  let d1 := dedupByKey (fun s => fingerprint s.row) (stampedRows rows run_date fetched_at)
  dedupByKey (fun s => exactKey s.row) d1

def optCell (q : Option ℚ) : String :=
  match q with
  | none => emptyS
  | some v => toString v

def csvHeader : String :=
  ("run_date,fetched_at,category,sub_category,listing_id,title,address,price_text,price_yen,area_sqm,area_tsubo,unit_price_per_sqm,unit_price_per_tsubo,layout_text,detail_text,detail_url")

def csvLine (s : SnapRow) : String :=
  String.intercalate (",")
    [s.run_date, s.fetched_at, s.row.category, s.row.sub_category, s.row.listing_id,
     s.row.title, s.row.address, s.row.price_text, optCell s.row.price_yen,
     optCell s.row.area_sqm, optCell s.row.area_tsubo, optCell s.row.unit_price_per_sqm,
     optCell s.row.unit_price_per_tsubo, s.row.layout_text, s.row.detail_text,
     s.row.detail_url]

/-- The bytes of the latest-snapshot file: header line plus one line per
surviving record. -/
def csvOfRows (rows : List SnapRow) : String :=
  String.intercalate (String.mk ['\n']) (csvHeader :: rows.map csvLine)

/-- One persisted listings row (the snapshot columns minus fetch time). -/
structure DbRow where
  run_date : String
  row : Row
  deriving DecidableEq, Repr

structure RunsRow where
  run_date : String
  total_records : Nat
  updated_at : String
  deriving DecidableEq, Repr

/-- The relational store: the listings table and the runs ledger. -/
structure DB where
  listings : List DbRow
  runs : List RunsRow
  deriving DecidableEq, Repr

def emptyDB : DB := ⟨[], []⟩

/-- The primary key of the listings table. -/
def dbKey (r : DbRow) : String × String × String :=
  (r.run_date, r.row.sub_category, r.row.listing_id)

/-- Sequential append of rows under the primary-key constraint: a key
collision aborts with the integrity error of the store. -/
def insertRows (acc : List DbRow) : List DbRow → Except String (List DbRow)
  | [] => Except.ok acc
  | r :: rs =>
    if acc.any (fun x => dbKey x == dbKey r) then
      Except.error ("IntegrityError: UNIQUE constraint failed: listings primary key")
    else insertRows (acc ++ [r]) rs

/-- Store upsert translated from save_sqlite: delete the rows of the run
date, append the new rows, then last-write-wins the run ledger row; an
integrity error rolls the uncommitted transaction back, leaving the store
unchanged. -/
def save_sqlite (rows : List DbRow) (db : DB) (run_date updated_at : String) :
    Except String DB :=
  let remaining := db.listings.filter (fun r => r.run_date != run_date)
  match insertRows remaining rows with
  | Except.error e => Except.error e
  | Except.ok lst =>
    Except.ok ⟨lst, db.runs.filter (fun r => r.run_date != run_date) ++
      [⟨run_date, rows.length, updated_at⟩]⟩

def toDbRow (s : SnapRow) : DbRow := ⟨s.run_date, s.row⟩

/-- One full pipeline invocation over a fixed web, producing the
latest-snapshot bytes and the store transition; the fetch timestamp and
ledger timestamp stand for the wall clock readings of the run. -/
def runFull (web : Web) (run_date fetched_at updated_at : String) (db : DB) :
    String × Except String DB :=
  let out := postProcess (runRaw web) run_date fetched_at
  (csvOfRows out, save_sqlite (out.map toDbRow) db run_date updated_at)

/-- Number of ledger rows carrying the given run date. -/
def runsCount (db : DB) (run_date : String) : Nat :=
  (db.runs.filter (fun r => r.run_date == run_date)).length

instance {ε α : Type} [DecidableEq ε] [DecidableEq α] : DecidableEq (Except ε α) :=
  fun a b =>
    match a, b with
    | Except.ok x, Except.ok y =>
      if h : x = y then isTrue (by rw [h]) else
        isFalse (fun he => h (Except.ok.injEq x y ▸ he))
    | Except.ok _, Except.error _ => isFalse (fun he => Except.noConfusion he)
    | Except.error _, Except.ok _ => isFalse (fun he => Except.noConfusion he)
    | Except.error e, Except.error f =>
      if h : e = f then isTrue (by rw [h]) else
        isFalse (fun he => h (Except.error.injEq e f ▸ he))

/-- A record with every field absent or empty, used as a base for concrete
test records. -/
def defaultRow : Row :=
  ⟨emptyS, emptyS, emptyS, emptyS, emptyS, emptyS, none, none, none, none, none,
   emptyS, emptyS, emptyS⟩

/-- Concrete sale card with full data, as served on the new-house seed
page of the concrete site below. -/
def cardHouse : SaleCard :=
  ⟨[⟨some ("所在地"), some ("東京都世田谷区奥沢３丁目")⟩,
    ⟨some ("物件名"), some ("テスト邸")⟩,
    ⟨some ("販売価格"), some ("1億2000万円")⟩,
    ⟨some ("土地面積"), some ("50.5m2")⟩,
    ⟨some ("間取り"), some ("3LDK")⟩],
   some ("/ms/chuko/tokyo/nc_12345678/")⟩

def houseSeed : Url := ⟨baseHost, ("/ikkodate/tokyo/ek_06660/")⟩

def emptyPage : Page := ⟨[], []⟩

/-- Concrete site: only the new-house seed page has cards, and no page
links further. -/
def webHouse : Web := ⟨[], fun u => if u = houseSeed then ⟨[], [cardHouse]⟩ else emptyPage⟩

/-- Concrete seed on a host different from the fixed site base. -/
def seedAlt : Url := ⟨("example.com"), ("/list/")⟩

/-- Concrete link table: the alternative seed page links to a page on the
base host under the same path. -/
def webAlt : LinkTable := [(seedAlt, [⟨some ("suumo.jp"), ("/list/p2")⟩])]

/-- Concrete rent room row carrying a price and an area. -/
def rentRowA : RentRow :=
  ⟨[("chk"), ("thumb"), ("3階"), ("8万円"), ("敷1 礼1"), ("1LDK 40m2")],
   some ("/chintai/jnc_000012345/?bc=100333555")⟩

def rentCardA : RentCard :=
  ⟨some ("テストハイツ"), some ("東京都世田谷区奥沢"), some ("/chintai/jnc_000012345/"),
   [rentRowA]⟩

/-- Concrete rent card whose single room row has only three cells. -/
def rentCardShort : RentCard := ⟨none, none, none, [⟨[("a"), ("b"), ("c")], none⟩]⟩

/-- Two concrete sale cards sharing the same listing identifier under
different detail addresses, at different prices. -/
def cardLot1 : SaleCard :=
  ⟨[⟨some ("所在地"), some ("東京都世田谷区")⟩, ⟨some ("販売価格"), some ("5000万円")⟩],
   some ("/a/nc_111/")⟩

def cardLot2 : SaleCard :=
  ⟨[⟨some ("所在地"), some ("東京都世田谷区")⟩, ⟨some ("販売価格"), some ("6000万円")⟩],
   some ("/b/nc_111/")⟩

/-- Two concrete raw records with empty addresses sharing one cross-post
fingerprint. -/
def rowDup1 : Row := { defaultRow with sub_category := ("土地"), price_yen := some 100 }

def rowDup2 : Row := { rowDup1 with title := ("B") }

/-- Concrete record whose address carries a lot-and-block numeric suffix
under an unmonitored street name. -/
def rowEx : Row := { defaultRow with sub_category := ("土地"), address := ("Example 7-22-13") }

/-- The first record parsed from the concrete sale card. -/
def rHouse : Row := (parse_baibai_page [cardHouse] ("土地")).headD defaultRow

/-- A character list is in collapsed form when every whitespace character
it contains is the single ASCII space and no two adjacent characters are
both whitespace; the whitespace-collapsing pass produces exactly such
lists and leaves them unchanged. -/
def Collapsed (l : List Char) : Prop :=
  (∀ c ∈ l, isSpaceChar c = true → c = ' ') ∧
  List.Chain' (fun a b => ¬(isSpaceChar a = true ∧ isSpaceChar b = true)) l

theorem qAdd_eq_add (a b : ℚ) : qAdd a b = a + b := by
  rw [qAdd, Rat.mkRat_eq_divInt]
  conv_rhs => rw [← Rat.num_divInt_den a, ← Rat.num_divInt_den b]
  rw [Rat.divInt_add_divInt _ _ (Int.natCast_ne_zero.mpr a.den_nz)
    (Int.natCast_ne_zero.mpr b.den_nz), Nat.cast_mul]

theorem qMul_eq_mul (a b : ℚ) : qMul a b = a * b := by
  rw [qMul, Rat.mkRat_eq_divInt]
  conv_rhs => rw [← Rat.num_divInt_den a, ← Rat.num_divInt_den b]
  rw [Rat.divInt_mul_divInt', Nat.cast_mul]

theorem qDiv_eq_div (a b : ℚ) : qDiv a b = a / b := by
  rw [qDiv]
  conv_rhs => rw [← Rat.num_divInt_den a, ← Rat.num_divInt_den b]
  rw [Rat.divInt_div_divInt]
  by_cases h : b.num < 0
  · rw [if_pos h, Rat.mkRat_eq_divInt, Nat.cast_mul,
      Int.ofNat_natAbs_of_nonpos (le_of_lt h)]
    have h2 : ((a.den : ℤ) * -b.num) = -((a.den : ℤ) * b.num) := by ring
    rw [← Rat.neg_divInt_neg]
    simp only [h2, neg_neg]
  · rw [if_neg h, Rat.mkRat_eq_divInt, Nat.cast_mul,
      Int.natAbs_of_nonneg (not_lt.mp h)]

theorem qMax_eq_max (a b : ℚ) : qMax a b = max a b := by
  rw [qMax, max_def_lt]
  exact if_congr Iff.rfl rfl rfl

theorem blt_iff_lt (a b : ℚ) : Rat.blt a b = true ↔ a < b := Iff.rfl

theorem dedupByKeyAux_sublist {α κ : Type} [DecidableEq κ] (key : α → κ) :
    ∀ (xs : List α) (seen : List κ), (dedupByKeyAux key seen xs).Sublist xs := by
  intro xs
  induction xs with
  | nil => intro seen; exact List.Sublist.refl []
  | cons x xs ih =>
    intro seen
    rw [dedupByKeyAux]
    split
    · exact (ih seen).cons x
    · exact (ih (key x :: seen)).cons₂ x

theorem dedupByKey_sublist {α κ : Type} [DecidableEq κ] (key : α → κ) (xs : List α) :
    (dedupByKey key xs).Sublist xs := dedupByKeyAux_sublist key xs []

theorem dedupByKeyAux_filter_seen {α κ : Type} [DecidableEq κ] (key : α → κ) (k : κ) :
    ∀ (xs : List α) (seen : List κ), k ∈ seen →
      (dedupByKeyAux key seen xs).filter (fun x => decide (key x = k)) = [] := by
  intro xs
  induction xs with
  | nil => intro seen _; rfl
  | cons x xs ih =>
    intro seen h
    rw [dedupByKeyAux]
    split
    · exact ih seen h
    · rename_i hx
      have hne : ¬key x = k := fun he => hx (he ▸ h)
      rw [List.filter_cons, decide_eq_false hne]
      exact ih (key x :: seen) (List.mem_cons_of_mem _ h)

theorem dedupByKeyAux_filter_new {α κ : Type} [DecidableEq κ] (key : α → κ) (k : κ) :
    ∀ (xs : List α) (seen : List κ), k ∉ seen →
      (dedupByKeyAux key seen xs).filter (fun x => decide (key x = k))
        = (xs.filter (fun x => decide (key x = k))).take 1 := by
  intro xs
  induction xs with
  | nil => intro seen _; rfl
  | cons x xs ih =>
    intro seen h
    rw [dedupByKeyAux]
    split
    · rename_i hseen
      have hne : ¬key x = k := fun he => h (he ▸ hseen)
      rw [List.filter_cons, decide_eq_false hne]
      simp only [Bool.false_eq_true, if_false]
      exact ih seen h
    · rename_i hseen
      by_cases he : key x = k
      · rw [List.filter_cons, List.filter_cons, decide_eq_true he]
        simp only [if_true]
        rw [dedupByKeyAux_filter_seen key k xs (key x :: seen)
          (he ▸ List.mem_cons_self (key x) seen)]
        rfl
      · rw [List.filter_cons, List.filter_cons, decide_eq_false he]
        simp only [Bool.false_eq_true, if_false]
        refine ih (key x :: seen) ?_
        intro hk
        rcases List.mem_cons.mp hk with h1 | h2
        · exact he h1.symm
        · exact h h2

theorem dedupByKey_filter_take_one {α κ : Type} [DecidableEq κ] (key : α → κ) (k : κ)
    (xs : List α) :
    (dedupByKey key xs).filter (fun x => decide (key x = k))
      = (xs.filter (fun x => decide (key x = k))).take 1 :=
  dedupByKeyAux_filter_new key k xs [] (List.not_mem_nil k)

theorem mem_stampedRows {rows : List Row} {rd t : String} {s : SnapRow}
    (h : s ∈ stampedRows rows rd t) :
    ∃ r ∈ addressFilter rows, s = SnapRow.mk rd t r := by
  obtain ⟨r, hr, rfl⟩ := List.mem_map.mp h
  exact ⟨r, hr, rfl⟩

theorem mem_postProcess_stamped {rows : List Row} {rd t : String} {s : SnapRow}
    (h : s ∈ postProcess rows rd t) : s ∈ stampedRows rows rd t := by
  have h1 : s ∈ dedupByKey (fun s => fingerprint s.row) (stampedRows rows rd t) :=
    (dedupByKey_sublist _ _).subset h
  exact (dedupByKey_sublist _ _).subset h1

theorem mem_postProcess_clean {rows : List Row} {rd t : String} {s : SnapRow}
    (h : s ∈ postProcess rows rd t) : is_noisy_address s.row.address = false := by
  obtain ⟨r, hr, rfl⟩ := mem_stampedRows (mem_postProcess_stamped h)
  have := (List.mem_filter.mp hr).2
  simpa using this

theorem mem_postProcess_stamp {rows : List Row} {rd t : String} {s : SnapRow}
    (h : s ∈ postProcess rows rd t) : s.run_date = rd ∧ s.fetched_at = t := by
  obtain ⟨r, _, rfl⟩ := mem_stampedRows (mem_postProcess_stamped h)
  exact ⟨rfl, rfl⟩

/-- C3: the cross-post dedup pass groups records by sub category, rounded
area, rounded price and normalized layout and keeps the first of each group,
and it runs before the exact dedup pass; but the claim that two raw records
with one fingerprint always collapse to exactly one surviving record in the
pipeline output fails, because the address filter ahead of the passes can
drop both: two fingerprint-equal records with empty addresses leave zero
survivors, not one. -/
theorem c3_dedup_cex :
    fingerprint rowDup1 = fingerprint rowDup2 ∧ rowDup1 ≠ rowDup2 ∧
    postProcess [rowDup1, rowDup2] ("2026-01-01") ("T1") = [] := by decide

/-- C3 amended: among the records that survive the address filter, the
fuzzy pass keeps exactly the first record of every fingerprint group; the
pipeline output is the exact pass applied after the fuzzy pass, hence a
subsequence of the fuzzy output with at most one record per fingerprint
group. -/
theorem c3_dedup_amended (rows : List Row) (rd t : String)
    (k : String × Option ℚ × Option ℚ × String) :
    postProcess rows rd t
      = dedupByKey (fun s => exactKey s.row)
          (dedupByKey (fun s => fingerprint s.row) (stampedRows rows rd t)) ∧
    (dedupByKey (fun s => fingerprint s.row) (stampedRows rows rd t)).filter
        (fun s => decide (fingerprint s.row = k))
      = ((stampedRows rows rd t).filter (fun s => decide (fingerprint s.row = k))).take 1 ∧
    ((postProcess rows rd t).filter (fun s => decide (fingerprint s.row = k))).length ≤ 1 := by
  refine ⟨rfl, dedupByKey_filter_take_one _ k _, ?_⟩
  have hsub : (postProcess rows rd t).Sublist
      (dedupByKey (fun s => fingerprint s.row) (stampedRows rows rd t)) :=
    dedupByKey_sublist _ _
  have h2 := (hsub.filter (fun s => decide (fingerprint s.row = k))).length_le
  rw [dedupByKey_filter_take_one _ k _] at h2
  exact le_trans h2 (le_trans (List.length_take_le 1 _) (le_refl 1))

/-- C10: the exact dedup key includes the detail address while the primary
key of the listings table does not, so two surviving records agreeing on
sub category and listing identifier but differing in detail address violate
the primary key on insert and the store write raises instead of
persisting. -/
theorem c10_pk_collision :
    (postProcess (parse_baibai_page [cardLot1, cardLot2] ("土地")) ("2026-01-01") ("T1")).map
        (fun s => (s.row.sub_category, s.row.listing_id, s.row.detail_url))
      = [(("土地"), ("111"), ("https://suumo.jp/a/nc_111/")),
         (("土地"), ("111"), ("https://suumo.jp/b/nc_111/"))] ∧
    (("https://suumo.jp/a/nc_111/") : String) ≠ ("https://suumo.jp/b/nc_111/") ∧
    save_sqlite
        ((postProcess (parse_baibai_page [cardLot1, cardLot2] ("土地"))
          ("2026-01-01") ("T1")).map toDbRow)
        emptyDB ("2026-01-01") ("U1")
      = Except.error ("IntegrityError: UNIQUE constraint failed: listings primary key") := by
  decide

/-- C8: the claim that every parsed record carries a category from the six
value enumeration of the specification fails: the sale page parser stamps
the literal category sale on every record, which is outside that
enumeration. -/
theorem c8_category_cex :
    (parse_baibai_page [cardLot1] ("土地")).map (fun r => r.category) = [("sale")] ∧
    ("sale") ∉ [("rent"), ("house_new"), ("house_used"), ("land"),
      ("mansion_new"), ("mansion_used")] := by decide

/-- C8 amended: every record of the sale page parser has category sale and
every record of the rent page parser has category rent, so the category
field of every parsed record is drawn from the two value set rent, sale. -/
theorem c8_category_amended :
    (∀ (cards : List SaleCard) (sub : String) (r : Row),
      r ∈ parse_baibai_page cards sub → r.category = ("sale")) ∧
    (∀ (cards : List RentCard) (r : Row),
      r ∈ parse_rent_page cards → r.category = ("rent")) := by
  constructor
  · intro cards sub r hr
    rw [parse_baibai_page] at hr
    obtain ⟨c, _, rfl⟩ := List.mem_map.mp hr
    rfl
  · intro cards r hr
    rw [parse_rent_page] at hr
    obtain ⟨c, _, hr2⟩ := List.mem_flatMap.mp hr
    obtain ⟨tr, _, rfl⟩ := List.mem_map.mp hr2
    rfl

/-- C8 amended, witness at the concrete sale card. -/
theorem c8_category_amended_witness :
    rHouse ∈ parse_baibai_page [cardHouse] ("土地") ∧ rHouse.category = ("sale") :=
  ⟨by decide, c8_category_amended.1 [cardHouse] ("土地") rHouse (by decide)⟩

/-- C9: the claim that every card and row found in a page is emitted as a
record fails for the rent parser: a room row with fewer than four cells is
silently skipped, so a page with one room row can yield zero records. -/
theorem c9_emission_cex :
    ([rentCardShort].map (fun c => c.rows.length)).sum = 1 ∧
    parse_rent_page [rentCardShort] = [] := by decide

/-- C9 amended: parsing is total; the sale parser emits exactly one record
per property card, and the rent parser emits exactly one record per room
row having at least four cells, silently skipping narrower rows. -/
theorem c9_emission_amended (scards : List SaleCard) (sub : String)
    (rcards : List RentCard) :
    (parse_baibai_page scards sub).length = scards.length ∧
    (parse_rent_page rcards).length
      = (rcards.map fun c => (c.rows.filter fun tr => 4 ≤ tr.tds.length).length).sum := by
  constructor
  · rw [parse_baibai_page]
    exact List.length_map _ _
  · induction rcards with
    | nil => rfl
    | cons c cs ih =>
      rw [parse_rent_page, List.flatMap_cons, List.length_append, List.length_map,
        List.map_cons, List.sum_cons]
      rw [parse_rent_page] at ih
      rw [ih]

theorem unitMatch_eq (X Y : Option ℚ) :
    (match X, Y with
     | some p, some a => if Rat.blt 0 a then some (qDiv p a) else none
     | _, _ => none)
      = (match X, Y with
     | some p, some a => if 0 < a then some (p / a) else none
     | _, _ => none) := by
  cases X with
  | none => cases Y <;> rfl
  | some p =>
    cases Y with
    | none => rfl
    | some a =>
      show (if Rat.blt 0 a then some (qDiv p a) else none) = _
      rw [qDiv_eq_div]
      exact if_congr (blt_iff_lt 0 a) rfl rfl

/-- C7: the claim that every emitted record recomputes its unit prices
whenever price and a positive area are present fails for the rent parser,
which always leaves both unit price fields absent: a concrete rent row with
price eighty thousand yen and area forty square meters is emitted with both
unit prices absent. -/
theorem c7_unit_price_cex :
    (parse_rent_page [rentCardA]).map
        (fun r => (r.price_yen, r.area_sqm, r.unit_price_per_sqm, r.unit_price_per_tsubo))
      = [(some 80000, some 40, none, none)] ∧
    (0 : ℚ) < 40 ∧ (none : Option ℚ) ≠ some ((80000 : ℚ) / 40) := by
  refine ⟨by decide, by norm_num, by simp⟩

/-- C7 amended: every sale record carries unit prices equal to the price
divided by the respective area whenever both are present and the area is
positive, and absent otherwise; every rent record carries absent unit
prices unconditionally. -/
theorem c7_unit_price_amended :
    (∀ (cards : List SaleCard) (sub : String) (r : Row), r ∈ parse_baibai_page cards sub →
      r.unit_price_per_sqm
          = (match r.price_yen, r.area_sqm with
             | some p, some a => if 0 < a then some (p / a) else none
             | _, _ => none) ∧
      r.unit_price_per_tsubo
          = (match r.price_yen, r.area_tsubo with
             | some p, some a => if 0 < a then some (p / a) else none
             | _, _ => none)) ∧
    (∀ (cards : List RentCard) (r : Row), r ∈ parse_rent_page cards →
      r.unit_price_per_sqm = none ∧ r.unit_price_per_tsubo = none) := by
  constructor
  · intro cards sub r hr
    rw [parse_baibai_page] at hr
    obtain ⟨c, _, rfl⟩ := List.mem_map.mp hr
    exact ⟨unitMatch_eq _ _, unitMatch_eq _ _⟩
  · intro cards r hr
    rw [parse_rent_page] at hr
    obtain ⟨c, _, hr2⟩ := List.mem_flatMap.mp hr
    obtain ⟨tr, _, rfl⟩ := List.mem_map.mp hr2
    exact ⟨rfl, rfl⟩

/-- C7 amended, witness at the concrete sale card with price and area both
present. -/
theorem c7_unit_price_witness :
    rHouse ∈ parse_baibai_page [cardHouse] ("土地") ∧
    rHouse.unit_price_per_sqm
      = (match rHouse.price_yen, rHouse.area_sqm with
         | some p, some a => if 0 < a then some (p / a) else none
         | _, _ => none) :=
  ⟨by decide, (c7_unit_price_amended.1 [cardHouse] ("土地") rHouse (by decide)).1⟩

theorem mem_enqueueLinks (sp : String) (visited : List Url) :
    ∀ (links : List Href) (queue : List Url) (u : Url),
      u ∈ enqueueLinks sp visited queue links → u ∈ queue ∨ admissibleLink sp u = true := by
  intro links
  induction links with
  | nil => intro q u h; exact Or.inl h
  | cons l ls ih =>
    intro q u h
    rcases ih _ u h with h1 | h1
    · dsimp only at h1
      split at h1
      · rename_i hcond
        rcases List.mem_append.mp h1 with h2 | h2
        · exact Or.inl h2
        · have he : u = absoluteUrl l := by simpa using h2
          subst he
          simp only [Bool.and_eq_true] at hcond
          exact Or.inr hcond.1.1
      · exact Or.inl h1
    · exact Or.inr h1

theorem crawlLoop_length_le (web : LinkTable) (sp : String) (mp : Nat) :
    ∀ (fuel : Nat) (visited queue : List Url), visited.length ≤ mp →
      (crawlLoop web sp mp fuel visited queue).length ≤ mp := by
  intro fuel
  induction fuel with
  | zero => intro v q h; exact h
  | succ f ih =>
    intro v q h
    cases q with
    | nil => exact h
    | cons url rest =>
      rw [crawlLoop]
      split
      · rename_i hlt
        split
        · exact ih v rest h
        · refine ih _ _ ?_
          simpa using Nat.succ_le_of_lt hlt
      · exact h

theorem crawlLoop_subset (web : LinkTable) (sp : String) (mp : Nat) (P : Url → Prop)
    (hP : ∀ u, admissibleLink sp u = true → P u) :
    ∀ (fuel : Nat) (visited queue : List Url), (∀ u ∈ visited, P u) → (∀ u ∈ queue, P u) →
      ∀ u ∈ crawlLoop web sp mp fuel visited queue, P u := by
  intro fuel
  induction fuel with
  | zero => intro v q hv _ u hu; exact hv u hu
  | succ f ih =>
    intro v q hv hq u hu
    cases q with
    | nil => exact hv u hu
    | cons url rest =>
      rw [crawlLoop] at hu
      split at hu
      · split at hu
        · exact ih v rest hv (fun x hx => hq x (List.mem_cons_of_mem _ hx)) u hu
        · refine ih _ _ ?_ ?_ u hu
          · intro x hx
            rcases List.mem_append.mp hx with h1 | h1
            · exact hv x h1
            · have he : x = url := by simpa using h1
              subst he
              exact hq x (List.mem_cons_self _ _)
          · intro x hx
            rcases mem_enqueueLinks sp _ _ _ x hx with h1 | h1
            · exact hq x (List.mem_cons_of_mem _ h1)
            · exact hP x h1
      · exact hv u hu

theorem insertSortedUrl_perm (x : Url) (l : List Url) :
    (insertSortedUrl x l).Perm (x :: l) := by
  induction l with
  | nil => exact List.Perm.refl _
  | cons y ys ih =>
    rw [insertSortedUrl]
    split
    · exact List.Perm.refl _
    · exact (ih.cons y).trans (List.Perm.swap x y ys)

theorem sortUrls_perm (l : List Url) : (sortUrls l).Perm l := by
  induction l with
  | nil => exact List.Perm.refl _
  | cons x xs ih => exact (insertSortedUrl_perm x (sortUrls xs)).trans (ih.cons x)

/-- C2: the crawler respects its page budget and its path-prefix rule, but
the claim that an enqueued hyperlink must share the host of the seed
address fails: admission compares hosts against the fixed site base, so a
seed on another host crawls onto the base host. -/
theorem c2_crawl_cex :
    (⟨("suumo.jp"), ("/list/p2")⟩ : Url) ∈ crawl_list_pages webAlt seedAlt 2 ∧
    (⟨("suumo.jp"), ("/list/p2")⟩ : Url).host ≠ seedAlt.host := by decide

/-- C2 amended: for every link table, seed and page budget, the crawler
visits at most max pages distinct addresses, and every visited address is
the seed itself or has the host of the fixed site base with a path
extending the seed path. -/
theorem c2_crawl_amended (web : LinkTable) (seed : Url) (maxPages : Nat) :
    (crawl_list_pages web seed maxPages).length ≤ maxPages ∧
    ∀ u ∈ crawl_list_pages web seed maxPages,
      u = seed ∨ (u.host = baseHost ∧ seed.path.data.isPrefixOf u.path.data = true) := by
  constructor
  · rw [crawl_list_pages, (sortUrls_perm _).length_eq]
    exact crawlLoop_length_le web seed.path maxPages _ [] [seed] (Nat.zero_le _)
  · intro u hu
    rw [crawl_list_pages] at hu
    have hu2 := (sortUrls_perm _).subset hu
    refine crawlLoop_subset web seed.path maxPages
      (fun v => v = seed ∨ (v.host = baseHost ∧ seed.path.data.isPrefixOf v.path.data = true))
      ?_ _ [] [seed] (by simp) ?_ u hu2
    · intro v hv
      rw [admissibleLink, Bool.and_eq_true] at hv
      exact Or.inr ⟨by simpa using hv.1, hv.2⟩
    · intro v hv
      exact Or.inl (by simpa using hv)

/-- C2 amended, witness at the concrete link table and the alternative
seed. -/
theorem c2_crawl_amended_witness :
    (crawl_list_pages webAlt seedAlt 2).length ≤ 2 ∧
    ((⟨("suumo.jp"), ("/list/p2")⟩ : Url) = seedAlt ∨
      ((⟨("suumo.jp"), ("/list/p2")⟩ : Url).host = baseHost ∧
        seedAlt.path.data.isPrefixOf
          (⟨("suumo.jp"), ("/list/p2")⟩ : Url).path.data = true)) :=
  ⟨(c2_crawl_amended webAlt seedAlt 2).1,
   (c2_crawl_amended webAlt seedAlt 2).2 _ (by decide)⟩

/-- C6: the filter rejects empty addresses, partial-lot markers and
lot-and-block suffixes of the monitored street names, but the claim that
any street name with a lot-and-block numeric suffix is excluded fails: an
address under an unmonitored street name with such a suffix is retained in
the final record set. -/
theorem c6_address_cex :
    is_noisy_address ("Example 7-22-13") = false ∧
    (postProcess [rowEx] ("2026-01-01") ("T1")).map (fun s => s.row.address)
      = [("Example 7-22-13")] := by decide

/-- C6 amended: an address is rejected exactly when it normalizes to the
empty string, contains the partial-lot marker, or contains one of the four
monitored street names followed by a lot-and-block numeric suffix; every
record of the pipeline output passed the filter, and every input record
whose normalized address is not rejected is retained by the filter
stage. -/
theorem c6_address_amended :
    (∀ a : String, is_noisy_address a = true ↔
      (normList a.data = [] ∨ containsSeq partialLotMarker (normList a.data) = true ∨
        searchBool matchLotBlockAt (normList a.data) = true)) ∧
    (∀ (rows : List Row) (rd t : String) (s : SnapRow),
      s ∈ postProcess rows rd t → is_noisy_address s.row.address = false) ∧
    (∀ (rows : List Row) (r : Row), r ∈ rows →
      is_noisy_address (normalize_text r.address) = false →
      ({ r with address := normalize_text r.address }) ∈ addressFilter rows) ∧
    (is_noisy_address ("奥沢7-22-13") = true ∧
      is_noisy_address ("東京都世田谷区奥沢") = false ∧
      is_noisy_address (emptyS) = true ∧
      is_noisy_address ("奥沢の一部") = true) := by
  refine ⟨?_, fun rows rd t s h => mem_postProcess_clean h, ?_,
    by decide, by decide, by decide, by decide⟩
  · intro a
    by_cases h1 : normList a.data = []
    · simp [is_noisy_address, h1]
    · by_cases h2 : containsSeq partialLotMarker (normList a.data) = true
      · simp [is_noisy_address, h1, h2]
      · simp [is_noisy_address, h1, h2]
  · intro rows r hr hclean
    rw [addressFilter]
    refine List.mem_filter.mpr ⟨List.mem_map_of_mem _ hr, ?_⟩
    simp only [hclean, Bool.not_false]

/-- C6 amended, witness: the concrete record with the unmonitored street
name passes the filter stage. -/
theorem c6_address_amended_witness :
    ({ rowEx with address := normalize_text rowEx.address }) ∈ addressFilter [rowEx] :=
  c6_address_amended.2.2.1 [rowEx] rowEx (by decide) (by decide)

theorem insertRows_ok :
    ∀ (rows acc l : List DbRow), insertRows acc rows = Except.ok l → l = acc ++ rows := by
  intro rows
  induction rows with
  | nil =>
    intro acc l h
    injection h with h
    rw [← h, List.append_nil]
  | cons r rs ih =>
    intro acc l h
    rw [insertRows] at h
    split at h
    · exact absurd h (by simp)
    · rw [ih (acc ++ [r]) l h]
      simp

theorem save_sqlite_ok {rows : List DbRow} {db : DB} {rd upd : String} {db1 : DB}
    (h : save_sqlite rows db rd upd = Except.ok db1) :
    db1 = DB.mk (db.listings.filter (fun r => r.run_date != rd) ++ rows)
      (db.runs.filter (fun r => r.run_date != rd) ++ [RunsRow.mk rd rows.length upd]) ∧
    insertRows (db.listings.filter (fun r => r.run_date != rd)) rows
      = Except.ok (db.listings.filter (fun r => r.run_date != rd) ++ rows) := by
  rw [save_sqlite] at h
  split at h
  · exact absurd h (by simp)
  · rename_i l hl
    injection h with h
    have h2 := insertRows_ok rows _ l hl
    subst h2
    exact ⟨h.symm, hl⟩

theorem runsCount_upsert (runs : List RunsRow) (L : List DbRow) (rd upd : String) (n : Nat) :
    runsCount
      (DB.mk L (runs.filter (fun r => r.run_date != rd) ++ [RunsRow.mk rd n upd])) rd = 1 := by
  rw [runsCount]
  show ((runs.filter (fun r => r.run_date != rd) ++ [RunsRow.mk rd n upd]).filter
    (fun r => r.run_date == rd)).length = 1
  rw [List.filter_append]
  have h1 : (runs.filter (fun r => r.run_date != rd)).filter (fun r => r.run_date == rd)
      = [] := by
    rw [List.filter_eq_nil_iff]
    intro a ha
    have h2 := (List.mem_filter.mp ha).2
    simp only [bne_iff_ne, ne_eq] at h2
    simp [h2]
  rw [h1]
  simp

theorem runFull_snd (web : Web) (rd t upd : String) (db : DB) :
    (runFull web rd t upd db).2
      = save_sqlite ((postProcess (runRaw web) rd t).map toDbRow) db rd upd := rfl

theorem save_sqlite_of_insert {rows : List DbRow} {db : DB} {rd upd : String}
    {l : List DbRow}
    (h : insertRows (db.listings.filter (fun r => r.run_date != rd)) rows = Except.ok l) :
    save_sqlite rows db rd upd
      = Except.ok (DB.mk l
          (db.runs.filter (fun r => r.run_date != rd) ++ [RunsRow.mk rd rows.length upd])) := by
  rw [save_sqlite, h]

theorem postProcess_dbRows_run_date (web : Web) (rd t : String) :
    ∀ x ∈ (postProcess (runRaw web) rd t).map toDbRow, x.run_date = rd := by
  intro x hx
  obtain ⟨s, hs, rfl⟩ := List.mem_map.mp hx
  exact (mem_postProcess_stamp hs).1

/-- C1: the snapshot file embeds the wall-clock fetch timestamp in every
record line, so two runs over identical input pages and the same run date
but at different wall-clock instants write different bytes: the claim of
byte-identical latest-snapshot output fails on the concrete site. -/
theorem c1_snapshot_cex :
    (runFull webHouse ("2026-01-01") ("2026-01-01T00:00:00") ("U1") emptyDB).1
      ≠ (runFull webHouse ("2026-01-01") ("2026-01-01T00:00:01") ("U1") emptyDB).1 := by
  decide

/-- C1 amended: with the fetch timestamp held fixed, a second run over the
same pages and run date reproduces the latest-snapshot bytes exactly, the
second store write succeeds whenever the first did, and after either run
the runs ledger holds exactly one row for that run date. -/
theorem c1_idempotence_amended (web : Web) (rd t upd1 upd2 : String) (db db1 : DB)
    (h : (runFull web rd t upd1 db).2 = Except.ok db1) :
    ∃ db2, (runFull web rd t upd2 db1).2 = Except.ok db2 ∧
      (runFull web rd t upd2 db1).1 = (runFull web rd t upd1 db).1 ∧
      runsCount db1 rd = 1 ∧ runsCount db2 rd = 1 := by
  have hsave : save_sqlite ((postProcess (runRaw web) rd t).map toDbRow) db rd upd1
      = Except.ok db1 := by rw [← runFull_snd]; exact h
  obtain ⟨hdb1, hins⟩ := save_sqlite_ok hsave
  have hrowsrd := postProcess_dbRows_run_date web rd t
  set rows := (postProcess (runRaw web) rd t).map toDbRow with hrows
  set remaining := db.listings.filter (fun r => r.run_date != rd) with hrem
  have hfilter1 : db1.listings.filter (fun r => r.run_date != rd) = remaining := by
    rw [hdb1]
    show (remaining ++ rows).filter (fun r => r.run_date != rd) = remaining
    rw [List.filter_append]
    have hA : remaining.filter (fun r => r.run_date != rd) = remaining := by
      rw [hrem, List.filter_filter]
      exact List.filter_congr (fun a _ => Bool.and_self _)
    have hB : rows.filter (fun r => r.run_date != rd) = [] := by
      rw [List.filter_eq_nil_iff]
      intro a ha
      simp [hrowsrd a ha]
    rw [hA, hB, List.append_nil]
  have hins2 : insertRows (db1.listings.filter (fun r => r.run_date != rd)) rows
      = Except.ok (remaining ++ rows) := by
    rw [hfilter1]
    exact hins
  refine ⟨DB.mk (remaining ++ rows) (db1.runs.filter (fun r => r.run_date != rd)
      ++ [RunsRow.mk rd rows.length upd2]), ?_, rfl, ?_, ?_⟩
  · rw [runFull_snd, ← hrows]
    exact save_sqlite_of_insert hins2
  · rw [hdb1]
    exact runsCount_upsert _ _ rd upd1 rows.length
  · exact runsCount_upsert db1.runs _ rd upd2 rows.length

theorem nfkcChar_ascii (c : Char) (h : c.toNat < 128) : nfkcChar c = [c] := by
  rw [nfkcChar]
  cases hf : nfkcTable.find? (fun p => p.1 == c) with
  | none => rfl
  | some p =>
    have hp := List.mem_of_find?_eq_some hf
    have hkey := List.find?_some hf
    have h127 : ∀ q ∈ nfkcTable, 127 < q.1.toNat := by decide
    have hbig := h127 p hp
    have hpc : p.1 = c := by simpa using hkey
    rw [hpc] at hbig
    omega

theorem nfkcChar_fix (c c' : Char) (h : c' ∈ nfkcChar c) : nfkcChar c' = [c'] := by
  rw [nfkcChar] at h
  cases hf : nfkcTable.find? (fun p => p.1 == c) with
  | none =>
    rw [hf] at h
    have he : c' = c := by simpa using h
    subst he
    rw [nfkcChar, hf]
  | some p =>
    rw [hf] at h
    have hp : p ∈ nfkcTable := List.mem_of_find?_eq_some hf
    have htab : ∀ q ∈ nfkcTable, ∀ d ∈ q.2, nfkcChar d = [d] := by decide
    exact htab p hp c' h

theorem mem_nfkcL {c' : Char} {l : List Char} (h : c' ∈ nfkcL l) :
    ∃ c ∈ l, c' ∈ nfkcChar c := by
  rw [nfkcL] at h
  obtain ⟨s, hs, hc⟩ := List.mem_flatten.mp h
  obtain ⟨c, hcl, rfl⟩ := List.mem_map.mp hs
  exact ⟨c, hcl, hc⟩

theorem nfkcL_fixed : ∀ {l : List Char}, (∀ c ∈ l, nfkcChar c = [c]) → nfkcL l = l := by
  intro l
  induction l with
  | nil => intro _; rfl
  | cons c cs ih =>
    intro h
    show nfkcChar c ++ nfkcL cs = c :: cs
    rw [h c (List.mem_cons_self _ _), ih (fun a ha => h a (List.mem_cons_of_mem _ ha))]
    rfl

theorem collapseWs_cons (a : Char) (as : List Char) :
    collapseWs (a :: as) = collapseStep a (collapseWs as) := rfl

theorem mem_collapseWs : ∀ (l : List Char) (c : Char), c ∈ collapseWs l → c = ' ' ∨ c ∈ l := by
  intro l
  induction l with
  | nil => intro c h; simp [collapseWs] at h
  | cons a as ih =>
    intro c h
    rw [collapseWs_cons, collapseStep] at h
    by_cases hsp : isSpaceChar a
    · rw [if_pos hsp] at h
      by_cases hh : (collapseWs as).head? = some ' '
      · rw [if_pos hh] at h
        rcases ih c h with h1 | h1
        · exact Or.inl h1
        · exact Or.inr (List.mem_cons_of_mem _ h1)
      · rw [if_neg hh] at h
        rcases List.mem_cons.mp h with h1 | h1
        · exact Or.inl h1
        · rcases ih c h1 with h2 | h2
          · exact Or.inl h2
          · exact Or.inr (List.mem_cons_of_mem _ h2)
    · rw [if_neg hsp] at h
      rcases List.mem_cons.mp h with h1 | h1
      · exact Or.inr (h1 ▸ List.mem_cons_self _ _)
      · rcases ih c h1 with h2 | h2
        · exact Or.inl h2
        · exact Or.inr (List.mem_cons_of_mem _ h2)

theorem collapseWs_collapsed : ∀ l : List Char, Collapsed (collapseWs l) := by
  intro l
  induction l with
  | nil => exact ⟨by simp [collapseWs], by simp [collapseWs]⟩
  | cons a as ih =>
    rw [collapseWs_cons, collapseStep]
    by_cases hsp : isSpaceChar a
    · rw [if_pos hsp]
      by_cases hh : (collapseWs as).head? = some ' '
      · rw [if_pos hh]
        exact ih
      · rw [if_neg hh]
        refine ⟨?_, ?_⟩
        · intro c hc _
          rcases List.mem_cons.mp hc with h1 | h1
          · exact h1
          · rename_i hc2
            exact ih.1 c h1 hc2
        · rw [List.chain'_cons']
          refine ⟨?_, ih.2⟩
          intro b hb hpair
          have hbmem : b ∈ collapseWs as := List.mem_of_mem_head? hb
          have hb2 : b = ' ' := ih.1 b hbmem hpair.2
          apply hh
          have hhead : (collapseWs as).head? = some b := hb
          rw [hhead, hb2]
    · rw [if_neg hsp]
      refine ⟨?_, ?_⟩
      · intro c hc hc2
        rcases List.mem_cons.mp hc with h1 | h1
        · exact absurd (h1 ▸ hc2) hsp
        · exact ih.1 c h1 hc2
      · rw [List.chain'_cons']
        refine ⟨?_, ih.2⟩
        intro b _ hpair
        exact hsp hpair.1

theorem collapsed_eq : ∀ l : List Char, Collapsed l → collapseWs l = l := by
  intro l
  induction l with
  | nil => intro _; rfl
  | cons a as ih =>
    intro h
    have htail : Collapsed as :=
      ⟨fun c hc => h.1 c (List.mem_cons_of_mem _ hc), (List.chain'_cons'.mp h.2).2⟩
    rw [collapseWs_cons, ih htail, collapseStep]
    by_cases hsp : isSpaceChar a
    · rw [if_pos hsp]
      have ha : a = ' ' := h.1 a (List.mem_cons_self _ _) hsp
      have hh : ¬(as.head? = some ' ') := by
        intro hcontra
        have hpairs := (List.chain'_cons'.mp h.2).1
        have hban := hpairs ' ' hcontra
        exact hban ⟨hsp, by decide⟩
      rw [if_neg hh, ha]
    · rw [if_neg hsp]


theorem dropWhile_head_false {p : Char → Bool} :
    ∀ {l : List Char} {a : Char} {t : List Char}, l.dropWhile p = a :: t → p a = false := by
  intro l
  induction l with
  | nil => intro a t h; simp [List.dropWhile] at h
  | cons c cs ih =>
    intro a t h
    rw [List.dropWhile_cons] at h
    split at h
    · exact ih h
    · rename_i hpc
      cases h
      simpa using hpc

theorem dropWhile_idem (p : Char → Bool) (l : List Char) :
    (l.dropWhile p).dropWhile p = l.dropWhile p := by
  cases hc : l.dropWhile p with
  | nil => rfl
  | cons a t =>
    rw [List.dropWhile_cons, dropWhile_head_false hc]
    simp

theorem stripL_isPre (l : List Char) : stripL l <+: l.dropWhile isSpaceChar := by
  rw [stripL]
  have h1 : ((l.dropWhile isSpaceChar).reverse.dropWhile isSpaceChar)
      <:+ (l.dropWhile isSpaceChar).reverse := List.dropWhile_suffix _
  have h2 := List.reverse_prefix.mpr h1
  rwa [List.reverse_reverse] at h2

theorem stripL_isInf (l : List Char) : stripL l <:+: l :=
  (stripL_isPre l).isInfix.trans (List.dropWhile_suffix isSpaceChar).isInfix

theorem collapsed_isInf {l l' : List Char} (h : Collapsed l) (hi : l' <:+: l) :
    Collapsed l' :=
  ⟨fun c hc hsp => h.1 c (hi.sublist.subset hc) hsp, List.Chain'.infix h.2 hi⟩

theorem stripL_idem (l : List Char) : stripL (stripL l) = stripL l := by
  have h1 : (stripL l).dropWhile isSpaceChar = stripL l := by
    cases hcase : stripL l with
    | nil => rfl
    | cons a t =>
      obtain ⟨r, hr⟩ := stripL_isPre l
      rw [hcase] at hr
      have hfalse : isSpaceChar a = false := dropWhile_head_false hr.symm
      rw [List.dropWhile_cons, hfalse]
      simp
  show ((((stripL l).dropWhile isSpaceChar).reverse).dropWhile isSpaceChar).reverse = stripL l
  rw [h1, stripL, List.reverse_reverse, dropWhile_idem]

theorem normList_idem (x : List Char) : normList (normList x) = normList x := by
  have hfix : ∀ c ∈ normList x, nfkcChar c = [c] := by
    intro c hc
    have hc2 : c ∈ collapseWs (nfkcL x) :=
      (stripL_isInf (collapseWs (nfkcL x))).sublist.subset hc
    rcases mem_collapseWs _ c hc2 with h | h
    · rw [h]; rfl
    · obtain ⟨c0, _, hcc⟩ := mem_nfkcL h
      exact nfkcChar_fix c0 c hcc
  show stripL (collapseWs (nfkcL (normList x))) = normList x
  rw [nfkcL_fixed hfix]
  have hcol : collapseWs (normList x) = normList x :=
    collapsed_eq _ (collapsed_isInf (collapseWs_collapsed (nfkcL x))
      (stripL_isInf (collapseWs (nfkcL x))))
  rw [hcol]
  exact stripL_idem (collapseWs (nfkcL x))

theorem prep_stable {s : String} (h : decomma (normList s.data) = normList s.data) :
    prepText (String.mk (prepText s)) = prepText s := by
  show decomma (normList (prepText s)) = prepText s
  rw [prepText, h, normList_idem, h]

/-- C1 amended, witness at the concrete site with a fixed clock. -/
theorem c1_idempotence_amended_witness :
    ∃ db2, (runFull webHouse ("2026-01-01") ("T") ("U2")
        ((runFull webHouse ("2026-01-01") ("T") ("U1") emptyDB).2.toOption.getD emptyDB)).2
        = Except.ok db2 ∧
      (runFull webHouse ("2026-01-01") ("T") ("U2")
        ((runFull webHouse ("2026-01-01") ("T") ("U1") emptyDB).2.toOption.getD emptyDB)).1
        = (runFull webHouse ("2026-01-01") ("T") ("U1") emptyDB).1 ∧
      runsCount ((runFull webHouse ("2026-01-01") ("T") ("U1")
        emptyDB).2.toOption.getD emptyDB) ("2026-01-01") = 1 ∧
      runsCount db2 ("2026-01-01") = 1 :=
  c1_idempotence_amended webHouse ("2026-01-01") ("T") ("U1") ("U2") emptyDB
    ((runFull webHouse ("2026-01-01") ("T") ("U1") emptyDB).2.toOption.getD emptyDB)
    (by decide)

theorem digit_ne {c x : Char} (hc : isDigitC c = true) (hx : isDigitC x = false) :
    c ≠ x := by
  intro he
  rw [he, hx] at hc
  cases hc

theorem digit_not_space {c : Char} (h : isDigitC c = true) : isSpaceChar c = false := by
  revert h
  simp [isDigitC, isSpaceChar]
  omega

theorem digit_not_comma {c : Char} (h : isDigitC c = true) : (c != ',') = true := by
  simp only [bne_iff_ne, ne_eq]
  exact digit_ne h (by decide)

theorem digit_ascii {c : Char} (h : isDigitC c = true) : c.toNat < 128 := by
  revert h
  simp [isDigitC]
  omega

theorem takeWhile_all {p : Char → Bool} :
    ∀ {l : List Char}, (∀ c ∈ l, p c = true) → l.takeWhile p = l := by
  intro l
  induction l with
  | nil => intro _; rfl
  | cons c cs ih =>
    intro h
    rw [List.takeWhile_cons, h c (List.mem_cons_self _ _)]
    simp only [if_true]
    rw [ih (fun a ha => h a (List.mem_cons_of_mem _ ha))]

theorem dropWhile_all {p : Char → Bool} :
    ∀ {l : List Char}, (∀ c ∈ l, p c = true) → l.dropWhile p = [] := by
  intro l
  induction l with
  | nil => intro _; rfl
  | cons c cs ih =>
    intro h
    rw [List.dropWhile_cons, h c (List.mem_cons_self _ _)]
    simp only [if_true]
    exact ih (fun a ha => h a (List.mem_cons_of_mem _ ha))

theorem takeWhile_split {p : Char → Bool} {x : Char} (hx : p x = false) :
    ∀ {a : List Char} (r : List Char), (∀ c ∈ a, p c = true) →
      (a ++ x :: r).takeWhile p = a ∧ (a ++ x :: r).dropWhile p = x :: r := by
  intro a
  induction a with
  | nil =>
    intro r _
    constructor
    · rw [List.nil_append, List.takeWhile_cons, hx]
      rfl
    · rw [List.nil_append, List.dropWhile_cons, hx]
      rfl
  | cons c cs ih =>
    intro r h
    have hc := h c (List.mem_cons_self _ _)
    have hcs := fun d hd => h d (List.mem_cons_of_mem _ hd)
    constructor
    · rw [List.cons_append, List.takeWhile_cons, hc]
      simp only [if_true]
      rw [(ih r hcs).1]
    · rw [List.cons_append, List.dropWhile_cons, hc]
      simp only [if_true]
      exact (ih r hcs).2

theorem dropSpaces_head {x : Char} (hx : isSpaceChar x = false) (r : List Char) :
    dropSpacesL (x :: r) = x :: r := by
  rw [dropSpacesL, List.dropWhile_cons, hx]
  rfl

theorem ratOfNumeral_digits {a : List Char} (ha : ∀ c ∈ a, isDigitC c = true) :
    ratOfNumeral a = (digitsToNat a : ℚ) := by
  simp only [ratOfNumeral]
  rw [takeWhile_all ha, dropWhile_all ha]

theorem numCands_digits {a : List Char} {x : Char} {r : List Char}
    (ha : ∀ c ∈ a, isDigitC c = true) (hane : a ≠ []) (hx : isDigitC x = false)
    (hxdot : x ≠ '.') :
    numCands (a ++ x :: r) = [(a, x :: r)] := by
  obtain ⟨h1, h2⟩ := takeWhile_split hx r ha
  simp only [numCands]
  rw [h1, h2, if_neg hane]
  split
  · rename_i r2 heq
    cases heq
    exact absurd rfl hxdot
  · rfl

theorem searchPat_head_some {α : Type} (m : List Char → Option α) {l : List Char} {v : α}
    (h : m l = some v) (hne : l ≠ []) : searchPat m l = some v := by
  cases l with
  | nil => exact absurd rfl hne
  | cons c cs =>
    simp only [searchPat]
    rw [h]

theorem searchPat_skip {α : Type} (m : List Char → Option α) :
    ∀ (a rest : List Char), (∀ c ∈ a, ∀ t, m (c :: t) = none) →
      searchPat m (a ++ rest) = searchPat m rest := by
  intro a
  induction a with
  | nil => intro rest _; rfl
  | cons c cs ih =>
    intro rest h
    rw [List.cons_append]
    simp only [searchPat]
    rw [h c (List.mem_cons_self _ _) (cs ++ rest)]
    exact ih rest (fun d hd => h d (List.mem_cons_of_mem _ hd))

theorem matchNumUnit_at {u : Char} {a r : List Char}
    (ha : ∀ c ∈ a, isDigitC c = true) (hane : a ≠ []) (hud : isDigitC u = false)
    (hudot : u ≠ '.') (husp : isSpaceChar u = false) :
    matchNumUnit u (a ++ u :: r) = some (a, r) := by
  rw [matchNumUnit, numCands_digits ha hane hud hudot]
  rw [List.findSome?_cons]
  have hdrop : dropSpacesL (u :: r) = u :: r := dropSpaces_head husp r
  simp [hdrop]

theorem matchOkuMan_none {c : Char} (hc : c ≠ '億') (t : List Char) :
    matchOkuMan (c :: t) = none := by
  rw [matchOkuMan, if_neg hc]

theorem matchOkuMan_at {b : List Char} {r : List Char}
    (hb : ∀ c ∈ b, isDigitC c = true) (hbne : b ≠ []) :
    matchOkuMan ('億' :: (b ++ '万' :: r)) = some b := by
  rw [matchOkuMan, if_pos rfl]
  have hbhead : dropSpacesL (b ++ '万' :: r) = b ++ '万' :: r := by
    cases b with
    | nil => exact absurd rfl hbne
    | cons b0 bs =>
      rw [List.cons_append]
      exact dropSpaces_head (digit_not_space (hb b0 (List.mem_cons_self _ _))) _
  rw [hbhead, numCands_digits hb hbne (by decide) (by decide)]
  rw [List.findSome?_cons]
  have hdrop : dropSpacesL ('万' :: r) = '万' :: r := dropSpaces_head (by decide) r
  simp [hdrop]

theorem dropWhile_all_false {p : Char → Bool} {l : List Char}
    (h : ∀ c ∈ l, p c = false) : l.dropWhile p = l := by
  cases l with
  | nil => rfl
  | cons c cs =>
    rw [List.dropWhile_cons, h c (List.mem_cons_self _ _)]
    rfl

theorem collapseWs_no_space {l : List Char} (h : ∀ c ∈ l, isSpaceChar c = false) :
    collapseWs l = l := by
  induction l with
  | nil => rfl
  | cons c cs ih =>
    rw [collapseWs_cons, ih (fun d hd => h d (List.mem_cons_of_mem _ hd)), collapseStep,
      if_neg (by simp [h c (List.mem_cons_self _ _)])]

theorem stripL_no_space {l : List Char} (h : ∀ c ∈ l, isSpaceChar c = false) :
    stripL l = l := by
  rw [stripL, dropWhile_all_false h,
    dropWhile_all_false (fun c hc => h c (List.mem_reverse.mp hc)), List.reverse_reverse]

/-- C4: a currency token consisting of a decimal numeral, the oku unit, a
decimal numeral and the man unit parses to the first numeral scaled by ten
to the eighth plus the second scaled by ten to the fourth; in particular
the token one-oku two-thousand-man-yen parses to one hundred twenty
million. -/
theorem c4_currency :
    (∀ (a b : List Char), a ≠ [] → b ≠ [] →
      (∀ c ∈ a, isDigitC c = true) → (∀ c ∈ b, isDigitC c = true) →
      parse_jpy_amount (String.mk (a ++ '億' :: (b ++ ['万'])))
        = some ((digitsToNat a : ℚ) * 100000000 + (digitsToNat b : ℚ) * 10000)) ∧
    parse_jpy_amount ("1億2000万円") = some 120000000 := by
  constructor
  · intro a b hane hbne hda hdb
    have hplain : ∀ c ∈ a ++ '億' :: (b ++ ['万']),
        isDigitC c = true ∨ c = '億' ∨ c = '万' := by
      intro c hc
      rcases List.mem_append.mp hc with h | h
      · exact Or.inl (hda c h)
      · rcases List.mem_cons.mp h with h | h
        · exact Or.inr (Or.inl h)
        · rcases List.mem_append.mp h with h | h
          · exact Or.inl (hdb c h)
          · exact Or.inr (Or.inr (by simpa using h))
    have hnospace : ∀ c ∈ a ++ '億' :: (b ++ ['万']), isSpaceChar c = false := by
      intro c hc
      rcases hplain c hc with h | h | h
      · exact digit_not_space h
      · rw [h]; decide
      · rw [h]; decide
    have hprep : prepText (String.mk (a ++ '億' :: (b ++ ['万'])))
        = a ++ '億' :: (b ++ ['万']) := by
      show decomma (normList (a ++ '億' :: (b ++ ['万']))) = _
      have hnfkc : nfkcL (a ++ '億' :: (b ++ ['万'])) = a ++ '億' :: (b ++ ['万']) := by
        refine nfkcL_fixed ?_
        intro c hc
        rcases hplain c hc with h | h | h
        · exact nfkcChar_ascii c (digit_ascii h)
        · rw [h]; decide
        · rw [h]; decide
      rw [normList, hnfkc, collapseWs_no_space hnospace, stripL_no_space hnospace, decomma]
      refine List.filter_eq_self.mpr ?_
      intro c hc
      rcases hplain c hc with h | h | h
      · exact digit_not_comma h
      · rw [h]; decide
      · rw [h]; decide
    have htokne : a ++ '億' :: (b ++ ['万']) ≠ [] := by
      intro h
      rcases List.append_eq_nil.mp h with ⟨_, h2⟩
      cases h2
    have hs1 : searchPat (matchNumUnit '億') (a ++ '億' :: (b ++ ['万']))
        = some (a, b ++ ['万']) :=
      searchPat_head_some _
        (matchNumUnit_at hda hane (by decide) (by decide) (by decide)) htokne
    have hstep : ∀ c ∈ a, ∀ t, matchOkuMan (c :: t) = none := fun c hc t =>
      matchOkuMan_none (digit_ne (hda c hc) (by decide)) t
    have hs2 : searchPat matchOkuMan (a ++ '億' :: (b ++ ['万'])) = some b := by
      rw [searchPat_skip matchOkuMan a _ hstep]
      exact searchPat_head_some _ (matchOkuMan_at hdb hbne) (by simp)
    simp only [parse_jpy_amount, hprep, if_neg htokne, hs1, hs2]
    rw [ratOfNumeral_digits hda, ratOfNumeral_digits hdb, qMul_eq_mul, qMul_eq_mul,
      qAdd_eq_add]
  · decide

/-- C4 witness at the concrete token with numerals one and two thousand. -/
theorem c4_currency_witness :
    parse_jpy_amount (String.mk (['1'] ++ '億' :: (['2', '0', '0', '0'] ++ ['万'])))
      = some ((digitsToNat ['1'] : ℚ) * 100000000
          + (digitsToNat ['2', '0', '0', '0'] : ℚ) * 10000) :=
  c4_currency.1 ['1'] ['2', '0', '0', '0'] (by decide) (by decide) (by decide) (by decide)

end Suumo
